import Mathlib

/-!
Verification of core components of the shelley agent server against its
specification.  Each section shallowly embeds one component of the Go
source (src/unnamed/part_000 .. part_008, src/slug) as executable Lean
definitions and proves the specified properties about them.
-/

set_option autoImplicit false

namespace Shelley

/-! ### Subscription bus (SubPub, src/unnamed/part_005)

A subscriber is the bus-internal record created by `SubPub.Subscribe`:
its last-seen index (`idx`, Go `int64`), its bounded mailbox (`ch`, a Go
channel of capacity 10, modelled as a FIFO list with the front being the
next value a receive returns), whether its context/cancel token has fired
(`done`, Go `sub.ctx.Done()`), and whether its channel has been closed
(`chClosed`, Go `close(sub.ch)`). -/

structure Subscriber (K : Type) where
  idx : Int
  ch : List K
  done : Bool
  chClosed : Bool
deriving DecidableEq

/-- The mailbox capacity: `make(chan K, 10)` in `SubPub.Subscribe`. -/
def mailboxCap : Nat := 10

/-- The body of the `for _, sub := range sp.subscribers` loop of
`SubPub.Publish`: given the published index and value, returns the
subscriber's updated state and whether it is kept in `remaining`.
A subscriber whose context is done has its channel closed and is dropped;
a subscriber with `idx < i` receives the value if the channel send would
not block (buffer has room), otherwise it is closed, cancelled and
dropped; any other subscriber is retained untouched. -/
def publishStep {K : Type} (i : Int) (v : K) (s : Subscriber K) :
    Subscriber K × Bool :=
  if s.done then ({ s with chClosed := true }, false)
  else if s.idx < i then
    if s.ch.length < mailboxCap then
      ({ s with ch := s.ch ++ [v], idx := i }, true)
    else
      ({ s with chClosed := true, done := true }, false)
  else (s, true)

/-- `SubPub.Publish` over the whole subscriber list: the `remaining`
slice is exactly the subscribers whose step kept them. -/
def publish {K : Type} (i : Int) (v : K) (subs : List (Subscriber K)) :
    List (Subscriber K) :=
  subs.filterMap (fun s =>
    match publishStep i v s with
    | (s2, true) => some s2
    | (_, false) => none)

/-- The loop body of `SubPub.Broadcast`: like `publishStep` but delivers
regardless of the subscriber's index and never updates `idx`. -/
def broadcastStep {K : Type} (v : K) (s : Subscriber K) :
    Subscriber K × Bool :=
  if s.done then ({ s with chClosed := true }, false)
  else if s.ch.length < mailboxCap then
    ({ s with ch := s.ch ++ [v] }, true)
  else
    ({ s with chClosed := true, done := true }, false)

/-- `SubPub.Broadcast` over the whole subscriber list. -/
def broadcast {K : Type} (v : K) (subs : List (Subscriber K)) :
    List (Subscriber K) :=
  subs.filterMap (fun s =>
    match broadcastStep v s with
    | (s2, true) => some s2
    | (_, false) => none)

/-- One call of the `NextFn` closure returned by `SubPub.Subscribe`.
`none` models blocking (no value available, channel open, context not
done).  When the context is done or the channel closed, Go's select plus
the explicit drain return the next buffered value if any, otherwise the
terminal signal `(zero, false)`. -/
def subNext {K : Type} [Inhabited K] (s : Subscriber K) :
    Option ((K × Bool) × Subscriber K) :=
  if s.done then
    match s.ch with
    | [] => some ((default, false), s)
    | m :: rest => some ((m, true), { s with ch := rest })
  else if s.chClosed then
    match s.ch with
    | [] => some ((default, false), s)
    | m :: rest => some ((m, true), { s with ch := rest })
  else
    match s.ch with
    | [] => none
    | m :: rest => some ((m, true), { s with ch := rest })

/-- The trace of results of calling `NextFn` repeatedly (`fuel` times, or
until it would block). -/
def drainTrace {K : Type} [Inhabited K] :
    Nat → Subscriber K → List (K × Bool)
  | 0, _ => []
  | fuel + 1, s =>
    match subNext s with
    | none => []
    | some (r, s2) => r :: drainTrace fuel s2

theorem mem_publish_iff {K : Type} (i : Int) (v : K)
    (subs : List (Subscriber K)) (t : Subscriber K) :
    t ∈ publish i v subs ↔ ∃ s ∈ subs, publishStep i v s = (t, true) := by
  unfold publish
  rw [List.mem_filterMap]
  constructor
  · rintro ⟨s, hs, hstep⟩
    refine ⟨s, hs, ?_⟩
    rcases h : publishStep i v s with ⟨s2, b⟩
    cases b <;> rw [h] at hstep <;> simp at hstep
    rw [hstep]
  · rintro ⟨s, hs, hstep⟩
    exact ⟨s, hs, by rw [hstep]⟩

/-- C1: Publish delivers exactly once to each live, non-behind-capacity
subscriber with `since_index < index` (its mailbox gains exactly the one
new value `v` and its index becomes `index`), retains every live
subscriber with `since_index ≥ index` untouched, and an immediately
repeated Publish at the same index is a no-op for a subscriber whose
index is now that index.  (Subscribers whose cancel token has fired are
reaped, per §4.A of the spec; the delivery and retention clauses concern
live subscribers.) -/
theorem publish_delivers_exactly_once {K : Type} (s : Subscriber K)
    (i : Int) (v : K) (hlive : s.done = false) :
    (s.idx < i → s.ch.length < mailboxCap →
      publishStep i v s = ({ s with ch := s.ch ++ [v], idx := i }, true)) ∧
    (i ≤ s.idx → publishStep i v s = (s, true)) ∧
    (∀ subs : List (Subscriber K), s ∈ subs → s.idx < i →
      s.ch.length < mailboxCap →
      { s with ch := s.ch ++ [v], idx := i } ∈ publish i v subs) ∧
    (∀ subs : List (Subscriber K), s ∈ subs → i ≤ s.idx →
      s ∈ publish i v subs) ∧
    (∀ v2 : K,
      publishStep i v2 { s with ch := s.ch ++ [v], idx := i } =
        ({ s with ch := s.ch ++ [v], idx := i }, true)) := by
  have hstep : s.idx < i → s.ch.length < mailboxCap →
      publishStep i v s = ({ s with ch := s.ch ++ [v], idx := i }, true) := by
    intro h1 h2
    unfold publishStep
    rw [hlive]
    simp [h1, h2]
  have hkeep : i ≤ s.idx → publishStep i v s = (s, true) := by
    intro h1
    unfold publishStep
    rw [hlive]
    simp [Int.not_lt.mpr h1]
  refine ⟨hstep, hkeep, ?_, ?_, ?_⟩
  · intro subs hmem h1 h2
    exact (mem_publish_iff i v subs _).mpr ⟨s, hmem, hstep h1 h2⟩
  · intro subs hmem h1
    exact (mem_publish_iff i v subs _).mpr ⟨s, hmem, hkeep h1⟩
  · intro v2
    unfold publishStep
    simp [hlive, Int.lt_irrefl]

/-- Closed instance of `publish_delivers_exactly_once`: a live subscriber
at index 3 with two buffered values receives the value published at
index 5 and is retained; a second publish at index 5 leaves it alone. -/
theorem publish_delivers_exactly_once_witness :
    publishStep 5 (42 : Nat) ⟨3, [7, 8], false, false⟩ =
      (⟨5, [7, 8, 42], false, false⟩, true) ∧
    ⟨5, [7, 8, 42], false, false⟩ ∈
      publish 5 (42 : Nat) [⟨3, [7, 8], false, false⟩] ∧
    publishStep 5 (41 : Nat) ⟨5, [7, 8, 42], false, false⟩ =
      (⟨5, [7, 8, 42], false, false⟩, true) := by
  have h := publish_delivers_exactly_once (⟨3, [7, 8], false, false⟩ :
    Subscriber Nat) 5 42 rfl
  refine ⟨h.1 (by decide) (by decide), ?_, h.2.2.2.2 41⟩
  exact h.2.2.1 [⟨3, [7, 8], false, false⟩] (by simp) (by decide) (by decide)

/-- Helper: a kept step never grows a mailbox beyond the capacity bound. -/
theorem publishStep_kept_bound {K : Type} (i : Int) (v : K)
    (s t : Subscriber K) (h : publishStep i v s = (t, true))
    (hb : s.ch.length ≤ mailboxCap) : t.ch.length ≤ mailboxCap := by
  unfold publishStep at h
  by_cases hd : s.done = true
  · simp [hd] at h
  · simp only [hd] at h
    simp only [Bool.false_eq_true, if_false] at h
    by_cases h1 : s.idx < i
    · by_cases h2 : s.ch.length < mailboxCap
      · simp only [h1, if_true, h2] at h
        have ht := congrArg Prod.fst h
        simp only at ht
        rw [← ht]
        simpa using h2
      · simp [h1, h2] at h
    · simp only [h1, if_false] at h
      have ht := congrArg Prod.fst h
      simp only at ht
      rw [← ht]
      exact hb

/-- The state of the lagging subscriber of the C2 scenario after `n`
publishes: folds `publish` over indices `0 … n-1`, each carrying its
index as the value. -/
def lagScenario (n : Nat) : List (Subscriber Int) :=
  (List.range n).foldl
    (fun subs k => publish (Int.ofNat k) (Int.ofNat k) subs)
    [⟨-1, [], false, false⟩]

/-- C2: every subscriber mailbox stays within the 10-slot capacity; a
Publish or Broadcast delivery that would block on a full mailbox instead
closes that subscriber's channel, fires its cancel token and drops it,
while a live subscriber with room still receives the value; and the
subscriber joined at index -1 that consumes nothing while indices 0…10
are published survives the first ten publishes (with a full mailbox) and
is dropped by the eleventh.  Publish and Broadcast are total functions of
the bus state, hence always complete. -/
theorem publish_behind_drop {K : Type} (i : Int) (v : K) :
    (∀ subs : List (Subscriber K),
      (∀ s ∈ subs, s.ch.length ≤ mailboxCap) →
      ∀ t ∈ publish i v subs, t.ch.length ≤ mailboxCap) ∧
    (∀ s : Subscriber K, s.done = false → s.idx < i →
      ¬ s.ch.length < mailboxCap →
      publishStep i v s = ({ s with chClosed := true, done := true }, false)) ∧
    (∀ s : Subscriber K, s.done = false → ¬ s.ch.length < mailboxCap →
      broadcastStep v s = ({ s with chClosed := true, done := true }, false)) ∧
    (∀ s : Subscriber K, s.done = false → s.ch.length < mailboxCap →
      broadcastStep v s = ({ s with ch := s.ch ++ [v] }, true)) ∧
    (lagScenario 10 =
      [⟨9, [0, 1, 2, 3, 4, 5, 6, 7, 8, 9], false, false⟩] ∧
     lagScenario 11 = []) := by
  refine ⟨?_, ?_, ?_, ?_, by decide, by decide⟩
  · intro subs hb t ht
    rcases (mem_publish_iff i v subs t).mp ht with ⟨s, hs, hstep⟩
    exact publishStep_kept_bound i v s t hstep (hb s hs)
  · intro s hd h1 h2
    unfold publishStep
    simp [hd, h1, h2]
  · intro s hd h2
    unfold broadcastStep
    simp [hd, h2]
  · intro s hd h2
    unfold broadcastStep
    simp [hd, h2]

/-- Closed instance of `publish_behind_drop`: a full mailbox at a lower
index is dropped with channel closed and cancel fired, and a broadcast
delivery to a subscriber with room appends the value. -/
theorem publish_behind_drop_witness :
    publishStep 10 (99 : Nat)
        ⟨5, [0, 1, 2, 3, 4, 5, 6, 7, 8, 9], false, false⟩ =
      (⟨5, [0, 1, 2, 3, 4, 5, 6, 7, 8, 9], true, true⟩, false) ∧
    broadcastStep (99 : Nat) ⟨5, [1], false, false⟩ =
      (⟨5, [1, 99], false, false⟩, true) := by
  have h := publish_behind_drop (K := Nat) 10 99
  exact ⟨h.2.1 _ rfl (by decide) (by decide),
         h.2.2.2.1 _ rfl (by decide)⟩

/-- C3: once a subscriber's cancel token has fired, each `NextFn` call
returns the next still-enqueued mailbox value (FIFO), and the terminal
signal `(zero, false)` is reported only once the mailbox is empty, so no
value accepted into the mailbox before cancellation is lost. -/
theorem next_drains_after_cancel {K : Type} [Inhabited K]
    (s : Subscriber K) (hdone : s.done = true) :
    (s.ch = [] → subNext s = some ((default, false), s)) ∧
    (∀ (m : K) (rest : List K), s.ch = m :: rest →
      subNext s = some ((m, true), { s with ch := rest })) ∧
    drainTrace (s.ch.length + 1) s =
      s.ch.map (fun v => (v, true)) ++ [(default, false)] := by
  have step : ∀ t : Subscriber K, t.done = true →
      (t.ch = [] → subNext t = some ((default, false), t)) ∧
      (∀ (m : K) (rest : List K), t.ch = m :: rest →
        subNext t = some ((m, true), { t with ch := rest })) := by
    intro t ht
    constructor
    · intro hch
      unfold subNext
      rw [ht, hch]
      simp
    · intro m rest hch
      unfold subNext
      rw [ht, hch]
      simp
  have trace : ∀ (l : List K) (t : Subscriber K), t.done = true →
      t.ch = l →
      drainTrace (l.length + 1) t =
        l.map (fun v => (v, true)) ++ [(default, false)] := by
    intro l
    induction l with
    | nil =>
      intro t ht hch
      unfold drainTrace
      rw [(step t ht).1 hch]
      rfl
    | cons m rest ih =>
      intro t ht hch
      have hnext := (step t ht).2 m rest hch
      show drainTrace (rest.length + 1 + 1) t = _
      unfold drainTrace
      rw [hnext]
      simp only [List.map_cons, List.cons_append]
      congr 1
      exact ih { t with ch := rest } ht rfl
  exact ⟨(step s hdone).1, (step s hdone).2, trace s.ch s hdone rfl⟩

/-- Closed instance of `next_drains_after_cancel`: a cancelled subscriber
with three buffered values yields them in FIFO order and only then the
terminal signal. -/
theorem next_drains_after_cancel_witness :
    drainTrace 4 (⟨2, [10, 20, 30], true, true⟩ : Subscriber Nat) =
      [(10, true), (20, true), (30, true), (0, false)] := by
  exact (next_drains_after_cancel
    (⟨2, [10, 20, 30], true, true⟩ : Subscriber Nat) rfl).2.2

/-! ### End-of-turn observation (agentWorking, src/unnamed/part_003)

`APIMessage.Type` is a string compared against the `db.MessageType`
constants user/agent/tool/error/gitinfo; those five are the values the
server produces, so the type is embedded as an enumeration.
`EndOfTurn *bool` becomes `Option Bool`. -/

inductive MsgType where
  | user
  | agent
  | tool
  | error
  | gitinfo
deriving DecidableEq

structure APIMessage where
  type : MsgType
  endOfTurn : Option Bool
deriving DecidableEq

/-- The predicate of the trailing-gitinfo skip loop. -/
def isGitinfoMsg (m : APIMessage) : Bool := m.type = MsgType.gitinfo

/-- The backwards `for i := lastIdx; i >= 0; i--` scan of `agentWorking`
looking for the most recent agent message (the argument is the remaining
messages in reverse order).  Mirrors the source branch for branch,
including the final `return true` cases. -/
def agentScan : List APIMessage → Bool
  | [] => true
  | m :: rest =>
    if m.type = MsgType.agent then
      match m.endOfTurn with
      | none => true
      | some et => if !et then true else true
    else agentScan rest

/-- `agentWorking` from the server package: empty list is not working;
trailing gitinfo messages are skipped; an error tail is not working; an
agent tail is working unless `end_of_turn` is true; otherwise the
backwards scan decides. -/
def agentWorking (messages : List APIMessage) : Bool :=
  if messages.length = 0 then false
  else
    match messages.reverse.dropWhile isGitinfoMsg with
    | [] => false
    | last :: earlier =>
      if last.type = MsgType.error then false
      else if last.type = MsgType.agent then
        match last.endOfTurn with
        | none => true
        | some et => !et
      else agentScan (last :: earlier)

/-- The tail condition of the claim: after ignoring trailing gitinfo
entries, the tail entry exists and is an error entry or an agent entry
with `end_of_turn = true`. -/
def tailIsTerminal (messages : List APIMessage) : Bool :=
  match messages.reverse.dropWhile isGitinfoMsg with
  | [] => false
  | last :: _ =>
    decide (last.type = MsgType.error ∨
      (last.type = MsgType.agent ∧ last.endOfTurn = some true))

theorem agentScan_true (l : List APIMessage) : agentScan l = true := by
  induction l with
  | nil => rfl
  | cons m rest ih =>
    unfold agentScan
    by_cases h : m.type = MsgType.agent
    · simp only [h, if_true]
      cases m.endOfTurn with
      | none => rfl
      | some et => cases et <;> rfl
    · simpa [h] using ih

/-- C4 counterexample: at the empty message list the claim's
biconditional fails — `agentWorking` returns false although there is no
tail entry at all (so the tail is neither an agent entry with
`end_of_turn=true` nor an error entry). -/
theorem agentWorking_claim_counterexample :
    ¬ ((agentWorking [] = false) ↔ (tailIsTerminal [] = true)) := by
  decide

theorem dropWhile_append_all {α : Type} (p : α → Bool) (l1 l2 : List α)
    (h : ∀ x ∈ l1, p x = true) :
    (l1 ++ l2).dropWhile p = l2.dropWhile p := by
  induction l1 with
  | nil => rfl
  | cons a l ih =>
    have ha : p a = true := h a (by simp)
    simp only [List.cons_append, List.dropWhile_cons, ha, if_true]
    exact ih (fun x hx => h x (by simp [hx]))

theorem dropWhile_head_mem {α : Type} (p : α → Bool) (l : List α)
    (a : α) (rest : List α) (h : l.dropWhile p = a :: rest) : a ∈ l := by
  induction l with
  | nil => simp at h
  | cons b bl ih =>
    rw [List.dropWhile_cons] at h
    by_cases hb : p b = true
    · rw [if_pos hb] at h
      exact List.mem_cons_of_mem b (ih h)
    · rw [if_neg hb] at h
      rw [List.cons_eq_cons] at h
      exact h.1 ▸ List.mem_cons_self b bl

theorem dropWhile_head_not {α : Type} (p : α → Bool) (l : List α)
    (a : α) (rest : List α) (h : l.dropWhile p = a :: rest) :
    p a = false := by
  induction l with
  | nil => simp at h
  | cons b bl ih =>
    rw [List.dropWhile_cons] at h
    by_cases hb : p b = true
    · rw [if_pos hb] at h
      exact ih h
    · rw [if_neg hb] at h
      rw [List.cons_eq_cons] at h
      rw [← h.1]
      exact Bool.not_eq_true _ ▸ by simpa using hb

theorem agentWorking_all_gitinfo (msgs : List APIMessage)
    (hall : ∀ m ∈ msgs, m.type = MsgType.gitinfo) :
    agentWorking msgs = false := by
  unfold agentWorking
  by_cases hne : msgs.length = 0
  · rw [if_pos hne]
  · rw [if_neg hne]
    have : msgs.reverse.dropWhile isGitinfoMsg = [] := by
      rw [List.dropWhile_eq_nil_iff]
      intro x hx
      unfold isGitinfoMsg
      simp [hall x (by simpa using hx)]
    rw [this]

/-- C4 (amended): for every message list holding at least one non-gitinfo
entry, `agentWorking` returns false exactly when, after ignoring trailing
gitinfo entries, the tail entry is an agent entry with `end_of_turn=true`
or an error entry; a list that is empty or all-gitinfo also yields false
(there is no tail entry to inspect, so the `false iff terminal tail` form
of the claim does not apply to it); and appending any number of trailing
gitinfo entries never changes the result. -/
theorem agentWorking_tail_rule (msgs : List APIMessage) :
    ((∃ m ∈ msgs, m.type ≠ MsgType.gitinfo) →
      (agentWorking msgs = false ↔ tailIsTerminal msgs = true)) ∧
    ((∀ m ∈ msgs, m.type = MsgType.gitinfo) → agentWorking msgs = false) ∧
    (∀ gits : List APIMessage, (∀ g ∈ gits, g.type = MsgType.gitinfo) →
      agentWorking (msgs ++ gits) = agentWorking msgs) := by
  refine ⟨?_, ?_, ?_⟩
  · rintro ⟨m, hm, hmt⟩
    have hne : ¬ msgs.length = 0 := by
      intro h
      rw [List.length_eq_zero] at h
      subst h
      simp at hm
    have hstrip : msgs.reverse.dropWhile isGitinfoMsg ≠ [] := by
      intro h
      have := List.dropWhile_eq_nil_iff.mp h m (by simpa using hm)
      unfold isGitinfoMsg at this
      exact hmt (by simpa using this)
    unfold agentWorking tailIsTerminal
    rw [if_neg hne]
    cases hcase : msgs.reverse.dropWhile isGitinfoMsg with
    | nil => exact absurd hcase hstrip
    | cons last earlier =>
      by_cases herr : last.type = MsgType.error
      · simp [herr]
      · by_cases hag : last.type = MsgType.agent
        · simp only [herr, if_false, hag, if_true]
          cases het : last.endOfTurn with
          | none => simp [herr, hag]
          | some et => cases et <;> simp [herr, hag]
        · simp [herr, hag, agentScan_true]
  · exact agentWorking_all_gitinfo msgs
  · intro gits hg
    by_cases hmz : msgs.length = 0
    · rw [List.length_eq_zero] at hmz
      subst hmz
      simp only [List.nil_append]
      rw [agentWorking_all_gitinfo gits hg]
      rfl
    · have hall : ∀ x ∈ gits.reverse, isGitinfoMsg x = true := by
        intro x hx
        unfold isGitinfoMsg
        simp [hg x (by simpa using hx)]
      have hlen : ¬ (msgs ++ gits).length = 0 := by
        simp only [List.length_append]
        omega
      unfold agentWorking
      rw [if_neg hmz, if_neg hlen, List.reverse_append,
        dropWhile_append_all isGitinfoMsg gits.reverse msgs.reverse hall]

/-- Closed instance of `agentWorking_tail_rule`: a turn ending in
`agent end_of_turn=true` followed by a gitinfo entry satisfies the
tail rule, and appending two gitinfo entries does not change the
result for `[agent end_of_turn=true]`. -/
theorem agentWorking_tail_rule_witness :
    (agentWorking [⟨MsgType.agent, some true⟩, ⟨MsgType.gitinfo, none⟩] =
        false ↔
      tailIsTerminal [⟨MsgType.agent, some true⟩, ⟨MsgType.gitinfo, none⟩] =
        true) ∧
    agentWorking ([⟨MsgType.agent, some true⟩] ++
        [⟨MsgType.gitinfo, none⟩, ⟨MsgType.gitinfo, none⟩]) =
      agentWorking [⟨MsgType.agent, some true⟩] := by
  refine ⟨(agentWorking_tail_rule _).1
    ⟨⟨MsgType.agent, some true⟩, by simp, by decide⟩, ?_⟩
  exact (agentWorking_tail_rule _).2.2 _ (by decide)

/-- C10: when a message list holds no agent entry and no error entry,
`agentWorking` returns false exactly when the list is empty or all
gitinfo, and returns true as soon as some non-gitinfo entry (such as a
lone user or tool message) is present. -/
theorem agentWorking_no_agent_activity (msgs : List APIMessage)
    (h : ∀ m ∈ msgs, m.type ≠ MsgType.agent ∧ m.type ≠ MsgType.error) :
    (agentWorking msgs = false ↔ ∀ m ∈ msgs, m.type = MsgType.gitinfo) ∧
    ((∃ m ∈ msgs, m.type ≠ MsgType.gitinfo) → agentWorking msgs = true) ∧
    agentWorking [⟨MsgType.user, none⟩] = true ∧
    agentWorking [⟨MsgType.tool, none⟩] = true := by
  by_cases hall : ∀ m ∈ msgs, m.type = MsgType.gitinfo
  · refine ⟨⟨fun _ => hall, fun _ => agentWorking_all_gitinfo msgs hall⟩,
      ?_, by decide, by decide⟩
    rintro ⟨m, hm, hmt⟩
    exact absurd (hall m hm) hmt
  · have hex : ∃ m ∈ msgs, m.type ≠ MsgType.gitinfo := by
      push_neg at hall
      exact hall
    have hterm : tailIsTerminal msgs = false := by
      unfold tailIsTerminal
      cases hcase : msgs.reverse.dropWhile isGitinfoMsg with
      | nil => rfl
      | cons last earlier =>
        have hmem : last ∈ msgs := by
          have := dropWhile_head_mem isGitinfoMsg msgs.reverse last earlier
            hcase
          simpa using this
        simp [(h last hmem).1, (h last hmem).2]
    have hiff := (agentWorking_tail_rule msgs).1 hex
    have hwt : agentWorking msgs = true := by
      cases hw : agentWorking msgs with
      | false =>
        rw [hw] at hiff
        rw [hterm] at hiff
        simp at hiff
      | true => rfl
    refine ⟨⟨fun hwf => ?_, fun hallg => absurd hallg hall⟩,
      fun _ => hwt, by decide, by decide⟩
    rw [hwt] at hwf
    simp at hwf

/-- Closed instance of `agentWorking_no_agent_activity`: a user message
followed by a gitinfo entry has activity but no agent reply, so the
conversation is reported as working. -/
theorem agentWorking_no_agent_activity_witness :
    agentWorking [⟨MsgType.user, none⟩, ⟨MsgType.gitinfo, none⟩] = true := by
  exact (agentWorking_no_agent_activity
      [⟨MsgType.user, none⟩, ⟨MsgType.gitinfo, none⟩] (by decide)).2.1
    ⟨⟨MsgType.user, none⟩, by simp, by decide⟩

/-! ### Slug allocator (GenerateSlug, src/unnamed/part_008)

The retry loop of `GenerateSlug` is embedded with the persistence call
abstracted as a function `upd` classifying each attempt: success, a
unique-constraint violation (the strings the source sniffs in the error
text), or any other persistence error. -/

inductive UpdateResult where
  | ok
  | uniqueViolation
  | otherError (msg : String)

/-- Modelled from the spec: `UpdateConversationSlug` of the db package is
not among the sources; per §3/§8 it enforces uniqueness of non-NULL
slugs, so an update attempt fails with a unique-constraint violation
exactly when the slug is already taken. -/
def updOf (taken : String → Bool) : String → UpdateResult :=
  fun s => if taken s then UpdateResult.uniqueViolation else UpdateResult.ok

/-- The candidate tried on loop iteration `j`: the base slug first, then
`base-1`, `base-2`, …  (`fmt.Sprintf("%s-%d", baseSlug, attempt+1)`). -/
def candidate (base : String) (j : Nat) : String :=
  if j = 0 then base else base ++ "-" ++ toString j

/-- The `for attempt := 0; attempt < 100; attempt++` loop of
`GenerateSlug`; `fuel` is the number of iterations left, so the loop is
entered with fuel 100 and attempt 0. -/
def slugLoop (upd : String → UpdateResult) (base : String) :
    Nat → Nat → String → Except String String
  | 0, _, _ => Except.error "failed to generate unique slug after 100 attempts"
  | fuel + 1, attempt, slug =>
    match upd slug with
    | UpdateResult.ok => Except.ok slug
    | UpdateResult.uniqueViolation =>
        slugLoop upd base fuel (attempt + 1)
          (base ++ "-" ++ toString (attempt + 1))
    | UpdateResult.otherError e =>
        Except.error ("failed to update conversation slug: " ++ e)

/-- `GenerateSlug` after the base slug text has been obtained. -/
def generateSlug (upd : String → UpdateResult) (base : String) :
    Except String String :=
  slugLoop upd base 100 0 base

/-- The same loop run against a concrete database state (the list of
already-taken slugs), recording the slug on success.  The uniqueness
behaviour of the store is modelled from the spec as in `updOf`. -/
def slugLoopDB (db : List String) (base : String) :
    Nat → Nat → String → Except String String × List String
  | 0, _, _ =>
    (Except.error "failed to generate unique slug after 100 attempts", db)
  | fuel + 1, attempt, slug =>
    if slug ∈ db then
      slugLoopDB db base fuel (attempt + 1)
        (base ++ "-" ++ toString (attempt + 1))
    else (Except.ok slug, slug :: db)

def generateSlugDB (db : List String) (base : String) :
    Except String String × List String :=
  slugLoopDB db base 100 0 base

theorem candidate_zero (base : String) : candidate base 0 = base := rfl

theorem candidate_succ (base : String) (j : Nat) :
    candidate base (j + 1) = base ++ "-" ++ toString (j + 1) := by
  unfold candidate
  simp

theorem slugLoop_success (taken : String → Bool) (base : String) :
    ∀ (k f a : Nat), k < f →
      (∀ j, j < k → taken (candidate base (a + j)) = true) →
      taken (candidate base (a + k)) = false →
      slugLoop (updOf taken) base f a (candidate base a) =
        Except.ok (candidate base (a + k)) := by
  intro k
  induction k with
  | zero =>
    intro f a hf hprev hk
    cases f with
    | zero => omega
    | succ f =>
      unfold slugLoop updOf
      rw [Nat.add_zero] at hk
      rw [hk]
      simp
  | succ k ih =>
    intro f a hf hprev hk
    cases f with
    | zero => omega
    | succ f =>
      have h0 : taken (candidate base a) = true := by
        have := hprev 0 (Nat.succ_pos k)
        rwa [Nat.add_zero] at this
      unfold slugLoop updOf
      rw [h0]
      simp only [if_true]
      rw [← candidate_succ base a]
      have hprev2 : ∀ j, j < k → taken (candidate base (a + 1 + j)) = true := by
        intro j hj
        have := hprev (j + 1) (by omega)
        rwa [show a + (j + 1) = a + 1 + j by omega] at this
      have hk2 : taken (candidate base (a + 1 + k)) = false := by
        rwa [show a + (k + 1) = a + 1 + k by omega] at hk
      have := ih f (a + 1) (by omega) hprev2 hk2
      rw [show a + (k + 1) = a + 1 + k by omega]
      exact this

theorem slugLoop_exhaust (taken : String → Bool) (base : String) :
    ∀ (f a : Nat),
      (∀ j, j < f → taken (candidate base (a + j)) = true) →
      slugLoop (updOf taken) base f a (candidate base a) =
        Except.error "failed to generate unique slug after 100 attempts" := by
  intro f
  induction f with
  | zero => intro a _; rfl
  | succ f ih =>
    intro a hall
    have h0 : taken (candidate base a) = true := by
      have := hall 0 (Nat.succ_pos f)
      rwa [Nat.add_zero] at this
    unfold slugLoop updOf
    rw [h0]
    rw [← candidate_succ base a]
    apply ih (a + 1)
    intro j hj
    have := hall (j + 1) (by omega)
    rwa [show a + (j + 1) = a + 1 + j by omega] at this

theorem slugLoop_other (upd : String → UpdateResult) (base e : String) :
    ∀ (k f a : Nat), k < f →
      (∀ j, j < k →
        upd (candidate base (a + j)) = UpdateResult.uniqueViolation) →
      upd (candidate base (a + k)) = UpdateResult.otherError e →
      slugLoop upd base f a (candidate base a) =
        Except.error ("failed to update conversation slug: " ++ e) := by
  intro k
  induction k with
  | zero =>
    intro f a hf hprev hk
    cases f with
    | zero => omega
    | succ f =>
      unfold slugLoop
      rw [Nat.add_zero] at hk
      rw [hk]
  | succ k ih =>
    intro f a hf hprev hk
    cases f with
    | zero => omega
    | succ f =>
      have h0 : upd (candidate base a) = UpdateResult.uniqueViolation := by
        have := hprev 0 (Nat.succ_pos k)
        rwa [Nat.add_zero] at this
      unfold slugLoop
      rw [h0]
      rw [← candidate_succ base a]
      apply ih f (a + 1) (by omega)
      · intro j hj
        have := hprev (j + 1) (by omega)
        rwa [show a + (j + 1) = a + 1 + j by omega] at this
      · rwa [show a + (k + 1) = a + 1 + k by omega] at hk

/-- C5: the allocator tries the base slug, then `base-1`, `base-2`, …:
it succeeds with the first candidate whose persistence does not hit the
unique constraint; after 100 failing attempts it gives up with exactly
"failed to generate unique slug after 100 attempts"; on any
non-uniqueness persistence error it stops at once and returns that
error wrapped as "failed to update conversation slug: …"; and three
conversations whose slug LLM yields "test-slug" each receive
"test-slug", "test-slug-1", "test-slug-2" in creation order. -/
theorem generateSlug_retry_spec :
    (∀ (taken : String → Bool) (base : String) (k : Nat), k ≤ 99 →
      (∀ j, j < k → taken (candidate base j) = true) →
      taken (candidate base k) = false →
      generateSlug (updOf taken) base = Except.ok (candidate base k)) ∧
    (∀ (taken : String → Bool) (base : String),
      (∀ j, j < 100 → taken (candidate base j) = true) →
      generateSlug (updOf taken) base =
        Except.error "failed to generate unique slug after 100 attempts") ∧
    (∀ (upd : String → UpdateResult) (base e : String) (k : Nat), k ≤ 99 →
      (∀ j, j < k →
        upd (candidate base j) = UpdateResult.uniqueViolation) →
      upd (candidate base k) = UpdateResult.otherError e →
      generateSlug upd base =
        Except.error ("failed to update conversation slug: " ++ e)) ∧
    (generateSlugDB [] "test-slug" =
      (Except.ok "test-slug", ["test-slug"])) ∧
    (generateSlugDB ["test-slug"] "test-slug" =
      (Except.ok "test-slug-1", ["test-slug-1", "test-slug"])) ∧
    (generateSlugDB ["test-slug-1", "test-slug"] "test-slug" =
      (Except.ok "test-slug-2",
        ["test-slug-2", "test-slug-1", "test-slug"])) := by
  refine ⟨?_, ?_, ?_, rfl, rfl, rfl⟩
  · intro taken base k hk hprev hfree
    have := slugLoop_success taken base k 100 0 (by omega)
      (fun j hj => by rw [Nat.zero_add]; exact hprev j hj)
      (by rw [Nat.zero_add]; exact hfree)
    rw [candidate_zero, Nat.zero_add] at this
    exact this
  · intro taken base hall
    have := slugLoop_exhaust taken base 100 0
      (fun j hj => by rw [Nat.zero_add]; exact hall j hj)
    rwa [candidate_zero] at this
  · intro upd base e k hk hprev hother
    have := slugLoop_other upd base e k 100 0 (by omega)
      (fun j hj => by rw [Nat.zero_add]; exact hprev j hj)
      (by rw [Nat.zero_add]; exact hother)
    rwa [candidate_zero] at this

/-- Closed instance of `generateSlug_retry_spec`: with only the base slug
taken, the allocator settles on the first suffixed candidate. -/
theorem generateSlug_retry_spec_witness :
    generateSlug (updOf (fun s => s == "busy")) "busy" =
      Except.ok "busy-1" := by
  exact generateSlug_retry_spec.1 (fun s => s == "busy") "busy" 1
    (by omega) (by decide) (by decide)

/-! ### Slug sanitization (Sanitize, src/unnamed/part_008)

`Sanitize` is embedded over `List Char`.  After sanitization the string
is pure ASCII `[a-z0-9-]`, so Go's byte-level `slug[:60]` truncation
coincides with character-level `take 60`.  Character classes are stated
on code points: RE2 `\s` is `[\t\n\f\r ]`; `strings.ToLower` only
changes ASCII letters among characters that can survive the later
`[^a-z0-9-]` strip, so it is embedded as the ASCII lowering. -/

/-- The class of Go regex `[\s_]`: tab, newline, form feed, carriage
return, space, underscore. -/
def isWsUnd (c : Char) : Bool :=
  c.toNat == 9 || c.toNat == 10 || c.toNat == 12 || c.toNat == 13 ||
    c.toNat == 32 || c.toNat == 95

/-- The class of Go regex `[a-z0-9-]` (45 is the hyphen). -/
def isAllowed (c : Char) : Bool :=
  (97 ≤ c.toNat && c.toNat ≤ 122) || (48 ≤ c.toNat && c.toNat ≤ 57) ||
    c.toNat == 45

/-- `strings.ToLower`, restricted to the ASCII range (see above). -/
def goToLower (c : Char) : Char :=
  if 65 ≤ c.toNat && c.toNat ≤ 90 then Char.ofNat (c.toNat + 32) else c

def hyph (c : Char) : Bool := c == '-'

/-- `regexp.MustCompile(cls+).ReplaceAllString(s, r)` for a character
class `p` and a one-character replacement `r`: every maximal run of
`p`-characters becomes the single character `r`.  The boolean argument
records whether we are inside a run whose replacement was already
emitted. -/
def replRun (p : Char → Bool) (r : Char) : Bool → List Char → List Char
  | _, [] => []
  | inRun, c :: cs =>
    if p c then
      if inRun then replRun p r true cs
      else r :: replRun p r true cs
    else c :: replRun p r false cs

/-- The right half of `strings.Trim(s, "-")`: drop the trailing run of
`p`-characters. -/
def trimRight (p : Char → Bool) : List Char → List Char
  | [] => []
  | c :: cs =>
    if (trimRight p cs).isEmpty && p c then [] else c :: trimRight p cs

/-- `strings.Trim(s, "-")`. -/
def trimHyph (l : List Char) : List Char := trimRight hyph (l.dropWhile hyph)

/-- The first five stages of `Sanitize`: lower-case, whitespace and
underscore runs to `-`, strip `[^a-z0-9-]`, collapse `-` runs, trim
leading/trailing `-`. -/
def preTrunc (l : List Char) : List Char :=
  trimHyph (replRun hyph '-' false
    ((replRun isWsUnd '-' false (l.map goToLower)).filter isAllowed))

/-- `Sanitize` from the slug package: the stages of `preTrunc`, then
truncation to 60 characters with a re-trim (`if len(slug) > 60`). -/
def sanitizeL (l : List Char) : List Char :=
  if 60 < (preTrunc l).length then trimHyph ((preTrunc l).take 60)
  else preTrunc l

def Sanitize (s : String) : String := String.mk (sanitizeL s.data)

/-- No two adjacent hyphens, tracking whether the previous character
(if any) was a hyphen. -/
def noTwoFrom : Bool → List Char → Bool
  | _, [] => true
  | b, c :: cs => !(b && hyph c) && noTwoFrom (hyph c) cs

def headOK : List Char → Bool
  | [] => true
  | c :: _ => !(hyph c)

def lastOK : List Char → Bool
  | [] => true
  | [c] => !(hyph c)
  | _ :: c :: cs => lastOK (c :: cs)

/-- The normal form established by `Sanitize`: only `[a-z0-9-]`
characters, no hyphen runs, no leading or trailing hyphen, at most 60
characters. -/
def isSane (l : List Char) : Prop :=
  (∀ c ∈ l, isAllowed c = true) ∧ noTwoFrom false l = true ∧
    headOK l = true ∧ lastOK l = true ∧ l.length ≤ 60

theorem goToLower_of_allowed (c : Char) (h : isAllowed c = true) :
    goToLower c = c := by
  unfold isAllowed at h
  simp only [Bool.or_eq_true, Bool.and_eq_true, decide_eq_true_eq,
    beq_iff_eq] at h
  unfold goToLower
  split
  · next hcond =>
    simp only [Bool.and_eq_true, decide_eq_true_eq] at hcond
    omega
  · rfl

theorem not_wsund_of_allowed (c : Char) (h : isAllowed c = true) :
    isWsUnd c = false := by
  unfold isAllowed at h
  simp only [Bool.or_eq_true, Bool.and_eq_true, decide_eq_true_eq,
    beq_iff_eq] at h
  cases hb : isWsUnd c
  · rfl
  · exfalso
    unfold isWsUnd at hb
    simp only [Bool.or_eq_true, beq_iff_eq] at hb
    omega

theorem hyph_eq (c : Char) (h : hyph c = true) : c = '-' := by
  unfold hyph at h
  exact eq_of_beq h

theorem map_id_on {α : Type} (f : α → α) (l : List α)
    (h : ∀ c ∈ l, f c = c) : l.map f = l := by
  induction l with
  | nil => rfl
  | cons a t ih =>
    rw [List.map_cons, h a (by simp), ih (fun c hc => h c (by simp [hc]))]

theorem filter_id_on {α : Type} (p : α → Bool) (l : List α)
    (h : ∀ c ∈ l, p c = true) : l.filter p = l := by
  induction l with
  | nil => rfl
  | cons a t ih =>
    rw [List.filter_cons_of_pos (h a (by simp)),
      ih (fun c hc => h c (by simp [hc]))]

theorem replRun_id (p : Char → Bool) (r : Char) (l : List Char)
    (h : ∀ c ∈ l, p c = false) : ∀ b, replRun p r b l = l := by
  induction l with
  | nil => intro b; rfl
  | cons a t ih =>
    intro b
    unfold replRun
    rw [h a (by simp)]
    simp only [Bool.false_eq_true, if_false]
    rw [ih (fun c hc => h c (by simp [hc])) false]

theorem replRun_mem (p : Char → Bool) (r : Char) :
    ∀ (b : Bool) (l : List Char) (c : Char),
      c ∈ replRun p r b l → c = r ∨ c ∈ l := by
  intro b l
  induction l generalizing b with
  | nil => intro c hc; simp [replRun] at hc
  | cons a t ih =>
    intro c hc
    unfold replRun at hc
    by_cases hp : p a = true
    · rw [hp] at hc
      simp only [if_true] at hc
      cases b with
      | true =>
        simp only [if_true] at hc
        rcases ih true c hc with h | h
        · exact Or.inl h
        · exact Or.inr (by simp [h])
      | false =>
        simp only [Bool.false_eq_true, if_false] at hc
        rcases List.mem_cons.mp hc with h | h
        · exact Or.inl h
        · rcases ih true c h with h2 | h2
          · exact Or.inl h2
          · exact Or.inr (by simp [h2])
    · rw [Bool.not_eq_true] at hp
      rw [hp] at hc
      simp only [Bool.false_eq_true, if_false] at hc
      rcases List.mem_cons.mp hc with h | h
      · exact Or.inr (by simp [h])
      · rcases ih false c h with h2 | h2
        · exact Or.inl h2
        · exact Or.inr (by simp [h2])

theorem collapse_noTwo :
    ∀ (l : List Char) (b : Bool), noTwoFrom b (replRun hyph '-' b l) = true := by
  intro l
  induction l with
  | nil => intro b; rfl
  | cons a t ih =>
    intro b
    unfold replRun
    by_cases hp : hyph a = true
    · rw [hp]
      simp only [if_true]
      cases b with
      | true => exact ih true
      | false =>
        simp only [Bool.false_eq_true, if_false]
        unfold noTwoFrom
        rw [Bool.and_eq_true]
        refine ⟨by decide, ?_⟩
        have : hyph '-' = true := by decide
        rw [this]
        exact ih true
    · rw [Bool.not_eq_true] at hp
      rw [hp]
      simp only [Bool.false_eq_true, if_false]
      unfold noTwoFrom
      rw [Bool.and_eq_true]
      exact ⟨by simp [hp], by rw [hp]; exact ih false⟩

theorem collapse_id :
    ∀ (l : List Char) (b : Bool), noTwoFrom b l = true →
      replRun hyph '-' b l = l := by
  intro l
  induction l with
  | nil => intro b _; rfl
  | cons a t ih =>
    intro b h
    unfold noTwoFrom at h
    rw [Bool.and_eq_true] at h
    unfold replRun
    by_cases hp : hyph a = true
    · rw [hp]
      simp only [if_true]
      cases b with
      | true =>
        exfalso
        rw [hp] at h
        simp at h
      | false =>
        simp only [Bool.false_eq_true, if_false]
        rw [hyph_eq a hp]
        rw [hp] at h
        rw [ih true h.2]
    · rw [Bool.not_eq_true] at hp
      rw [hp]
      simp only [Bool.false_eq_true, if_false]
      rw [hp] at h
      rw [ih false h.2]

theorem trimRight_noTwo (l : List Char) :
    ∀ b, noTwoFrom b l = true → noTwoFrom b (trimRight hyph l) = true := by
  induction l with
  | nil => intro b _; rfl
  | cons a t ih =>
    intro b h
    unfold noTwoFrom at h
    rw [Bool.and_eq_true] at h
    unfold trimRight
    by_cases he : ((trimRight hyph t).isEmpty && hyph a) = true
    · rw [if_pos he]; rfl
    · rw [if_neg he]
      unfold noTwoFrom
      rw [Bool.and_eq_true]
      exact ⟨h.1, ih (hyph a) h.2⟩

theorem trimRight_mem (p : Char → Bool) (l : List Char) (c : Char)
    (h : c ∈ trimRight p l) : c ∈ l := by
  induction l with
  | nil => simp [trimRight] at h
  | cons a t ih =>
    unfold trimRight at h
    by_cases he : ((trimRight p t).isEmpty && p a) = true
    · rw [if_pos he] at h
      simp at h
    · rw [if_neg he] at h
      rcases List.mem_cons.mp h with h2 | h2
      · simp [h2]
      · simp [ih h2]

theorem trimRight_length (p : Char → Bool) (l : List Char) :
    (trimRight p l).length ≤ l.length := by
  induction l with
  | nil => simp [trimRight]
  | cons a t ih =>
    unfold trimRight
    by_cases he : ((trimRight p t).isEmpty && p a) = true
    · rw [if_pos he]
      simp
    · rw [if_neg he]
      simpa using ih

theorem trimRight_headOK (l : List Char) (h : headOK l = true) :
    headOK (trimRight hyph l) = true := by
  cases l with
  | nil => rfl
  | cons a t =>
    unfold trimRight
    by_cases he : ((trimRight hyph t).isEmpty && hyph a) = true
    · rw [if_pos he]; rfl
    · rw [if_neg he]
      exact h

theorem trimRight_lastOK (l : List Char) :
    lastOK (trimRight hyph l) = true := by
  induction l with
  | nil => rfl
  | cons a t ih =>
    unfold trimRight
    by_cases he : ((trimRight hyph t).isEmpty && hyph a) = true
    · rw [if_pos he]; rfl
    · rw [if_neg he]
      rw [Bool.and_eq_true] at he
      cases hr : trimRight hyph t with
      | nil =>
        have hae : ¬ hyph a = true := by
          intro ha
          exact he ⟨by rw [hr]; rfl, ha⟩
        unfold lastOK
        simpa using hae
      | cons r rt =>
        rw [hr] at ih
        unfold lastOK
        exact ih

theorem trimRight_id (l : List Char) (h : lastOK l = true) :
    trimRight hyph l = l := by
  induction l with
  | nil => rfl
  | cons a t ih =>
    cases t with
    | nil =>
      unfold lastOK at h
      unfold trimRight
      simp only [trimRight, List.isEmpty_nil, Bool.true_and]
      rw [Bool.not_eq_true'] at h
      rw [h]
      rfl
    | cons b bt =>
      have h2 : lastOK (b :: bt) = true := by
        unfold lastOK at h
        exact h
      have ht := ih h2
      unfold trimRight
      rw [ht]
      simp

theorem dropWhile_headOK (l : List Char) :
    headOK (l.dropWhile hyph) = true := by
  induction l with
  | nil => rfl
  | cons a t ih =>
    rw [List.dropWhile_cons]
    by_cases hp : hyph a = true
    · rw [if_pos hp]
      exact ih
    · rw [if_neg hp]
      unfold headOK
      rw [Bool.not_eq_true] at hp
      simp [hp]

theorem noTwoFrom_mono (l : List Char) (b : Bool)
    (h : noTwoFrom b l = true) : noTwoFrom false l = true := by
  cases l with
  | nil => rfl
  | cons a t =>
    unfold noTwoFrom at h ⊢
    rw [Bool.and_eq_true] at h
    rw [Bool.and_eq_true]
    exact ⟨by simp, h.2⟩

theorem dropWhile_noTwo (l : List Char) (h : noTwoFrom false l = true) :
    noTwoFrom false (l.dropWhile hyph) = true := by
  induction l with
  | nil => rfl
  | cons a t ih =>
    rw [List.dropWhile_cons]
    unfold noTwoFrom at h
    rw [Bool.and_eq_true] at h
    by_cases hp : hyph a = true
    · rw [if_pos hp]
      exact ih (noTwoFrom_mono t (hyph a) h.2)
    · rw [if_neg hp]
      unfold noTwoFrom
      rw [Bool.and_eq_true]
      exact ⟨by simp, h.2⟩

theorem dropWhile_mem {α : Type} (p : α → Bool) (l : List α) (c : α)
    (h : c ∈ l.dropWhile p) : c ∈ l := by
  induction l with
  | nil => simp at h
  | cons a t ih =>
    rw [List.dropWhile_cons] at h
    by_cases hp : p a = true
    · rw [if_pos hp] at h
      simp [ih h]
    · rw [if_neg hp] at h
      exact h

theorem dropWhile_id (l : List Char) (h : headOK l = true) :
    l.dropWhile hyph = l := by
  cases l with
  | nil => rfl
  | cons a t =>
    unfold headOK at h
    rw [List.dropWhile_cons, if_neg]
    rw [Bool.not_eq_true'] at h
    simp [h]

theorem take_noTwo (l : List Char) :
    ∀ (b : Bool) (n : Nat), noTwoFrom b l = true →
      noTwoFrom b (l.take n) = true := by
  induction l with
  | nil => intro b n _; simp [noTwoFrom]
  | cons a t ih =>
    intro b n h
    cases n with
    | zero => rfl
    | succ n =>
      rw [List.take_succ_cons]
      unfold noTwoFrom at h ⊢
      rw [Bool.and_eq_true] at h
      rw [Bool.and_eq_true]
      exact ⟨h.1, ih (hyph a) n h.2⟩

theorem take_headOK (l : List Char) (n : Nat) (h : headOK l = true) :
    headOK (l.take n) = true := by
  cases l with
  | nil => simp [headOK]
  | cons a t =>
    cases n with
    | zero => rfl
    | succ n =>
      rw [List.take_succ_cons]
      exact h

theorem take_mem {α : Type} (l : List α) (n : Nat) (c : α)
    (h : c ∈ l.take n) : c ∈ l := by
  induction l generalizing n with
  | nil => simp at h
  | cons a t ih =>
    cases n with
    | zero => simp at h
    | succ n =>
      rw [List.take_succ_cons] at h
      rcases List.mem_cons.mp h with h2 | h2
      · simp [h2]
      · simp [ih n h2]

theorem trimHyph_noTwo (l : List Char) (h : noTwoFrom false l = true) :
    noTwoFrom false (trimHyph l) = true :=
  trimRight_noTwo (l.dropWhile hyph) false (dropWhile_noTwo l h)

theorem trimHyph_headOK (l : List Char) : headOK (trimHyph l) = true :=
  trimRight_headOK (l.dropWhile hyph) (dropWhile_headOK l)

theorem trimHyph_lastOK (l : List Char) : lastOK (trimHyph l) = true :=
  trimRight_lastOK (l.dropWhile hyph)

theorem trimHyph_mem (l : List Char) (c : Char) (h : c ∈ trimHyph l) :
    c ∈ l :=
  dropWhile_mem hyph l c (trimRight_mem hyph (l.dropWhile hyph) c h)

theorem dropWhile_length {α : Type} (p : α → Bool) (l : List α) :
    (l.dropWhile p).length ≤ l.length := by
  induction l with
  | nil => simp
  | cons a t ih =>
    rw [List.dropWhile_cons]
    by_cases hp : p a = true
    · rw [if_pos hp]
      exact Nat.le_trans ih (by simp)
    · rw [if_neg hp]

theorem trimHyph_length (l : List Char) :
    (trimHyph l).length ≤ l.length :=
  Nat.le_trans (trimRight_length hyph (l.dropWhile hyph))
    (dropWhile_length hyph l)

theorem trimHyph_id (l : List Char) (h1 : headOK l = true)
    (h2 : lastOK l = true) : trimHyph l = l := by
  unfold trimHyph
  rw [dropWhile_id l h1, trimRight_id l h2]

theorem preTrunc_allowed (l : List Char) :
    ∀ c ∈ preTrunc l, isAllowed c = true := by
  intro c hc
  have hc4 := trimHyph_mem _ c hc
  rcases replRun_mem hyph '-' false _ c hc4 with h | h
  · rw [h]; decide
  · exact (List.mem_filter.mp h).2

theorem preTrunc_noTwo (l : List Char) :
    noTwoFrom false (preTrunc l) = true :=
  trimHyph_noTwo _ (collapse_noTwo _ false)

theorem sanitizeL_isSane (l : List Char) : isSane (sanitizeL l) := by
  unfold sanitizeL
  by_cases h : 60 < (preTrunc l).length
  · rw [if_pos h]
    refine ⟨?_, ?_, trimHyph_headOK _, trimHyph_lastOK _, ?_⟩
    · intro c hc
      exact preTrunc_allowed l c (take_mem _ 60 c (trimHyph_mem _ c hc))
    · exact trimHyph_noTwo _ (take_noTwo _ false 60 (preTrunc_noTwo l))
    · refine Nat.le_trans (trimHyph_length _) ?_
      rw [List.length_take]
      omega
  · rw [if_neg h]
    exact ⟨preTrunc_allowed l, preTrunc_noTwo l, trimHyph_headOK _,
      trimHyph_lastOK _, by omega⟩

theorem sanitizeL_fixed (l : List Char) (h : isSane l) : sanitizeL l = l := by
  obtain ⟨hall, hnoTwo, hhead, hlast, hlen⟩ := h
  have h1 : l.map goToLower = l :=
    map_id_on _ _ (fun c hc => goToLower_of_allowed c (hall c hc))
  have hpre : preTrunc l = l := by
    unfold preTrunc
    rw [h1,
      replRun_id _ _ _ (fun c hc => not_wsund_of_allowed c (hall c hc)) false,
      filter_id_on _ _ hall, collapse_id l false hnoTwo,
      trimHyph_id l hhead hlast]
  unfold sanitizeL
  rw [hpre, if_neg (by omega)]

/-- C6: `Sanitize` (lower-case, whitespace/underscore runs to `-`, strip
of `[^a-z0-9-]`, hyphen-run collapse, hyphen trim, 60-character truncate
with re-trim) is idempotent: sanitizing an already-sanitized string
changes nothing. -/
theorem sanitize_idempotent (s : String) :
    Sanitize (Sanitize s) = Sanitize s := by
  unfold Sanitize
  rw [show (String.mk (sanitizeL s.data)).data = sanitizeL s.data from rfl]
  rw [sanitizeL_fixed (sanitizeL s.data) (sanitizeL_isSane s.data)]

/-! ### Slug extraction from the LLM response (callSlugLLM,
src/unnamed/part_008)

`llm.Content` is embedded with the fields `callSlugLLM` reads: the
content-type tag and the text.  Model selection (`generateSlugText`) is
abstracted to the response it produces. -/

inductive ContentType where
  | text
  | thinking
  | toolUse
  | toolResult
deriving DecidableEq

structure Content where
  type : ContentType
  text : String
deriving DecidableEq

/-- `unicode.IsSpace` as used by `strings.TrimSpace`, on the ASCII range
(tab, newline, vertical tab, form feed, carriage return, space). -/
def isTrimSpace (c : Char) : Bool :=
  c.toNat == 9 || c.toNat == 10 || c.toNat == 11 || c.toNat == 12 ||
    c.toNat == 13 || c.toNat == 32

/-- `strings.TrimSpace`. -/
def goTrimSpace (s : String) : String :=
  String.mk (trimRight isTrimSpace (s.data.dropWhile isTrimSpace))

/-- The `for _, c := range response.Content` loop of `callSlugLLM`: the
first content block whose type is text and whose text is non-empty
(thinking blocks and empty text blocks are skipped). -/
def findTextBlock (content : List Content) : Option Content :=
  content.find? (fun c => c.type == ContentType.text && !(c.text == ""))

/-- The response-processing tail of `callSlugLLM`: extract the raw slug,
trim it, sanitize it, and reject an empty result. -/
def callSlugLLM (content : List Content) : Except String String :=
  match findTextBlock content with
  | none => Except.error "no text content in LLM response"
  | some c =>
    if Sanitize (goTrimSpace c.text) = "" then
      Except.error "generated slug is empty after sanitization"
    else Except.ok (Sanitize (goTrimSpace c.text))

/-- `GenerateSlug` given the LLM response and the database state: when
the slug text generation fails, the error is returned before any
persistence attempt, so the database is unchanged. -/
def generateSlugFromResponse (db : List String) (content : List Content) :
    Except String String × List String :=
  match callSlugLLM content with
  | Except.error e => (Except.error e, db)
  | Except.ok base => slugLoopDB db base 100 0 base

/-- C7: whenever the first non-empty text block of the LLM response
sanitizes (after trimming) to the empty string, slug generation fails
with exactly "generated slug is empty after sanitization" and nothing is
persisted; `Sanitize("@#$%^&*()")` is empty and triggers this, while
`Sanitize("   leading and trailing   ")` is "leading-and-trailing" and
does not. -/
theorem slug_empty_after_sanitize :
    (∀ (content : List Content) (c : Content),
      findTextBlock content = some c →
      Sanitize (goTrimSpace c.text) = "" →
      callSlugLLM content =
        Except.error "generated slug is empty after sanitization") ∧
    (∀ (db : List String) (content : List Content) (c : Content),
      findTextBlock content = some c →
      Sanitize (goTrimSpace c.text) = "" →
      generateSlugFromResponse db content =
        (Except.error "generated slug is empty after sanitization", db)) ∧
    Sanitize "@#$%^&*()" = "" ∧
    Sanitize "   leading and trailing   " = "leading-and-trailing" ∧
    callSlugLLM [⟨ContentType.text, "   leading and trailing   "⟩] =
      Except.ok "leading-and-trailing" := by
  have part1 : ∀ (content : List Content) (c : Content),
      findTextBlock content = some c →
      Sanitize (goTrimSpace c.text) = "" →
      callSlugLLM content =
        Except.error "generated slug is empty after sanitization" := by
    intro content c hfind hempty
    unfold callSlugLLM
    simp only [hfind]
    rw [if_pos hempty]
  refine ⟨part1, ?_, by decide, by decide, rfl⟩
  intro db content c hfind hempty
  unfold generateSlugFromResponse
  rw [part1 content c hfind hempty]

/-- Closed instance of `slug_empty_after_sanitize`: a response whose
only text block is "@#$%^&*()" makes the allocator fail with the
empty-after-sanitization error and leaves the slug table untouched. -/
theorem slug_empty_after_sanitize_witness :
    callSlugLLM [⟨ContentType.text, "@#$%^&*()"⟩] =
      Except.error "generated slug is empty after sanitization" ∧
    generateSlugFromResponse ["existing"]
        [⟨ContentType.text, "@#$%^&*()"⟩] =
      (Except.error "generated slug is empty after sanitization",
        ["existing"]) := by
  exact ⟨slug_empty_after_sanitize.1 _ ⟨ContentType.text, "@#$%^&*()"⟩
      (by decide) (by decide),
    slug_empty_after_sanitize.2.1 ["existing"] _
      ⟨ContentType.text, "@#$%^&*()"⟩ (by decide) (by decide)⟩

/-! ### Port-80 navigation guard (isPort80 / navigateRun,
src/unnamed/part_000)

`isPort80` rests on Go's `net/url.Parse` and `URL.Port()`.  The parser
is embedded for the fields those read — scheme and host (with its port
validation) — following `getScheme`, `parse`, `parseAuthority`,
`parseHost`, `validOptionalPort` and `splitHostPort` from `net/url`;
control-character rejection, fragment/query cutting, authority
extraction and the colon-in-first-path-segment error are modelled;
percent-escape decoding and userinfo character validation are omitted
(none of the properties below involve escapes). -/

def isDigit (c : Char) : Bool := 48 ≤ c.toNat && c.toNat ≤ 57

def isAlpha (c : Char) : Bool :=
  (65 ≤ c.toNat && c.toNat ≤ 90) || (97 ≤ c.toNat && c.toNat ≤ 122)

def isSchemeExtra (c : Char) : Bool :=
  isDigit c || c == '+' || c == '-' || c == '.'

/-- Split a list at the LAST occurrence of `c`: returns the parts before
and after it, or `none` when `c` does not occur
(`strings.LastIndex`). -/
def lastSplit (c : Char) (l : List Char) : Option (List Char × List Char) :=
  if (l.reverse.takeWhile (fun d => !(d == c))).length = l.length then none
  else
    some (l.take (l.length -
        (l.reverse.takeWhile (fun d => !(d == c))).length - 1),
      (l.reverse.takeWhile (fun d => !(d == c))).reverse)

/-- `getScheme`: scan for a `scheme:` prefix of valid scheme characters;
`none` is the "missing protocol scheme" error (`:` first); a scan hitting
an invalid character or the end means no scheme. -/
def getSchemeAux (orig : List Char) (acc : List Char) :
    List Char → Option (List Char × List Char)
  | [] => some ([], orig)
  | c :: cs =>
    if isAlpha c then getSchemeAux orig (acc ++ [c]) cs
    else if isSchemeExtra c then
      if acc.isEmpty then some ([], orig)
      else getSchemeAux orig (acc ++ [c]) cs
    else if c == ':' then
      if acc.isEmpty then none else some (acc, cs)
    else some ([], orig)

def getScheme (l : List Char) : Option (List Char × List Char) :=
  getSchemeAux l [] l

/-- `validOptionalPort`: empty, or a colon followed by digits only. -/
def validOptionalPort (p : List Char) : Bool :=
  match p with
  | [] => true
  | c :: rest => c == ':' && rest.all isDigit

/-- `parseHost` (escape handling omitted): a bracketed host needs a
closing bracket and a valid optional port after it; otherwise the part
from the last colon, if any, must be a valid optional port. -/
def parseHost (host : List Char) : Option (List Char) :=
  if host.take 1 = ['['] then
    match lastSplit ']' host with
    | none => none
    | some (_, afterBr) =>
      if validOptionalPort afterBr then some host else none
  else
    match lastSplit ':' host with
    | none => some host
    | some (_, post) =>
      if validOptionalPort (':' :: post) then some host else none

/-- The parsed-URL fields `isPort80` reads. -/
structure GoURL where
  scheme : String
  host : String
deriving DecidableEq

/-- `url.Parse` restricted to the scheme/host fields (see the section
comment for the modelled subset). -/
def urlParse (s : String) : Option GoURL :=
  if s.data.any (fun c => c.toNat < 32 || c.toNat == 127) then none
  else
    match getScheme (s.data.takeWhile (fun c => !(c == '#'))) with
    | none => none
    | some (sch, rest0) =>
      let scheme := sch.map goToLower
      let rest := rest0.takeWhile (fun c => !(c == '?'))
      if rest.take 2 = ['/', '/'] then
        let authority := (rest.drop 2).takeWhile (fun c => !(c == '/'))
        let host0 := match lastSplit '@' authority with
          | none => authority
          | some (_, h) => h
        match parseHost host0 with
        | none => none
        | some h => some ⟨String.mk scheme, String.mk h⟩
      else
        if scheme.isEmpty &&
            !((rest.take 1 = ['/']) ||
              (rest.takeWhile (fun c => !(c == '/'))).all
                (fun c => !(c == ':'))) then
          none
        else some ⟨String.mk scheme, ""⟩

/-- `splitHostPort` / `URL.Port()`: the digits after the last colon when
that tail is a valid optional port, otherwise empty. -/
def portOnly (host : List Char) : List Char :=
  match lastSplit ':' host with
  | none => []
  | some (_, post) => if validOptionalPort (':' :: post) then post else []

/-- `isPort80` from the browse tool: parse errors report false; explicit
port "80", or no explicit port with scheme http, report true. -/
def isPort80 (urlStr : String) : Bool :=
  match urlParse urlStr with
  | none => false
  | some u =>
    String.mk (portOnly u.host.data) == "80" ||
      (String.mk (portOnly u.host.data) == "" && u.scheme == "http")

/-- The outcome of `navigateRun` at the pre-browser validation point:
either the port-80 error tool result (returned before
`GetBrowserContext` is called), or proceeding to the browser with the
requested url. -/
inductive NavResult where
  | port80Error
  | browserNavigate (url : String)
deriving DecidableEq

def navigateRun (url : String) : NavResult :=
  if isPort80 url then NavResult.port80Error
  else NavResult.browserNavigate url

/-- C8: the navigate action rejects, before contacting the browser,
exactly the URLs for which `isPort80` holds; on a parsed URL `isPort80`
holds exactly when the explicit port is "80" or there is no explicit
port and the scheme is http; unparseable URLs are never rejected;
explicit port trumps scheme on the given examples. -/
theorem isPort80_spec :
    (∀ s : String, urlParse s = none → isPort80 s = false) ∧
    (∀ (s : String) (u : GoURL), urlParse s = some u →
      (isPort80 s = true ↔
        (String.mk (portOnly u.host.data) = "80" ∨
          (String.mk (portOnly u.host.data) = "" ∧ u.scheme = "http")))) ∧
    isPort80 "https://example.com:443" = false ∧
    isPort80 "ftp://example.com:80" = true ∧
    (∀ url : String, isPort80 url = true →
      navigateRun url = NavResult.port80Error) ∧
    (∀ url : String, isPort80 url = false →
      navigateRun url = NavResult.browserNavigate url) ∧
    navigateRun "http://example.com" = NavResult.port80Error := by
  refine ⟨?_, ?_, by decide, by decide, ?_, ?_, by decide⟩
  · intro s h
    unfold isPort80
    simp only [h]
  · intro s u h
    unfold isPort80
    simp only [h]
    rw [Bool.or_eq_true, Bool.and_eq_true]
    simp only [beq_iff_eq]
  · intro url h
    unfold navigateRun
    rw [h]
    rfl
  · intro url h
    unfold navigateRun
    rw [h]
    rfl

/-- Closed instance of `isPort80_spec`: an invalid-port URL is not
rejected, the ftp URL with explicit port 80 is, and navigation to it
errors out before the browser is involved. -/
theorem isPort80_spec_witness :
    isPort80 "http://example.com:8x" = false ∧
    isPort80 "ftp://example.com:80" = true ∧
    navigateRun "ftp://example.com:80" = NavResult.port80Error := by
  refine ⟨isPort80_spec.1 "http://example.com:8x" (by decide),
    (isPort80_spec.2.1 "ftp://example.com:80" ⟨"ftp", "example.com:80"⟩
      (by decide)).mpr (Or.inl (by decide)),
    isPort80_spec.2.2.2.2.1 "ftp://example.com:80" (by decide)⟩

/-! ### Conversation metadata operations (db layer)

The SQL layer implementing `ArchiveConversation`,
`UnarchiveConversation` and `UpdateConversationSlug` is not among the
sources (src holds only its callers and its tests, e.g.
`TestArchiveDoesNotChangeUpdatedAt` in part_005), so the row operations
are modelled from the spec. -/

structure Conversation where
  conversationId : String
  slug : Option String
  createdAt : Nat
  updatedAt : Nat
  archived : Bool
deriving DecidableEq

/-- Modelled from the spec: `ArchiveConversation` sets the archived flag
and, per §4.B/§8, does not advance `updated_at`. -/
def archiveConversation (c : Conversation) : Conversation :=
  { c with archived := true }

/-- Modelled from the spec: `UnarchiveConversation` clears the archived
flag without advancing `updated_at`. -/
def unarchiveConversation (c : Conversation) : Conversation :=
  { c with archived := false }

/-- Modelled from the spec: `UpdateConversationSlug` replaces the slug
without advancing `updated_at`. -/
def updateConversationSlug (c : Conversation) (s : String) : Conversation :=
  { c with slug := some s }

/-- Modelled from the spec: appending a message updates the
conversation's `updated_at` in the same transaction (§4.B Append). -/
def appendTouch (c : Conversation) (now : Nat) : Conversation :=
  { c with updatedAt := now }

/-- C9: archive, unarchive and slug rename leave `updated_at` unchanged
(only a message append advances it), so these operations preserve the
relative activity order of any two conversations. -/
theorem archive_preserves_updatedAt (c d : Conversation) (s : String)
    (now : Nat) :
    (archiveConversation c).updatedAt = c.updatedAt ∧
    (unarchiveConversation c).updatedAt = c.updatedAt ∧
    (updateConversationSlug c s).updatedAt = c.updatedAt ∧
    (appendTouch c now).updatedAt = now ∧
    ((archiveConversation c).updatedAt ≤ (archiveConversation d).updatedAt ↔
      c.updatedAt ≤ d.updatedAt) ∧
    ((archiveConversation c).updatedAt ≤ (unarchiveConversation d).updatedAt ↔
      c.updatedAt ≤ d.updatedAt) :=
  ⟨rfl, rfl, rfl, rfl, Iff.rfl, Iff.rfl⟩

end Shelley
